import Mathlib

/- Verification of the two core text transformations of the algebra quiz
application (src/Quiz.py): the answer normalizer `MathTutorApp._norm` and
the LLM response sanitizer `MathTutorApp._strip_hidden_thoughts`.

Strings are modelled as `List Char`.  Python's `str.lower`, `str.strip`
and the regex classes are modelled on their ASCII behaviour. -/

namespace Quiz

/-- ASCII model of the whitespace class used by Python's `str.strip()` and
the regex class `\s`. -/
def pyIsSpace (c : Char) : Bool :=
  c = ' ' || c = '\t' || c = '\n' || c = '\r' || c = '\x0b' || c = '\x0c'

/-- ASCII model of Python's `str.lower` on one character. -/
def pyLower (c : Char) : Char :=
  if h : 65 ≤ c.toNat ∧ c.toNat ≤ 90 then
    Char.ofNatAux (c.toNat + 32) (Or.inl (by omega))
  else c

/-- ASCII upper-case letter. -/
def isUpperA (c : Char) : Bool := 65 ≤ c.toNat && c.toNat ≤ 90

/-- Model of `.replace(" ", "")`: removes space characters only. -/
def removeSpaces (l : List Char) : List Char := l.filter (fun c => c ≠ ' ')

/-- Python's `str.strip` with a character class: trim every leading and
trailing character satisfying `p`. -/
def pyStrip (p : Char → Bool) (l : List Char) : List Char :=
  ((l.dropWhile p).reverse.dropWhile p).reverse

/-- Model of `.strip()`: removes leading and trailing whitespace. -/
def stripWs (l : List Char) : List Char := pyStrip pyIsSpace l

def isParen (c : Char) : Bool := c = '(' || c = ')'

/-- Model of `.strip("()")`: removes leading and trailing parenthesis
characters (non-structural trim). -/
def stripParens (l : List Char) : List Char := pyStrip isParen l

/-- Model of `.replace(")(", ")*(")`: left-to-right replacement of every
occurrence of `)(` (occurrences can never overlap). -/
def replParen : List Char → List Char
  | [] => []
  | [c] => [c]
  | c :: d :: rest =>
    if c = ')' ∧ d = '(' then ')' :: '*' :: '(' :: replParen rest
    else c :: replParen (d :: rest)

/-- Model of Python `str.split("*")`. -/
def splitStar : List Char → List (List Char)
  | [] => [[]]
  | c :: rest =>
    if c = '*' then [] :: splitStar rest
    else
      match splitStar rest with
      | [] => [[c]]
      | p :: ps => (c :: p) :: ps

/-- Lexicographic comparison of strings by code point, as Python's `<=` on
`str` (used by `sorted`). -/
def lexLe : List Char → List Char → Bool
  | [], _ => true
  | _ :: _, [] => false
  | a :: as, b :: bs => if a < b then true else if a = b then lexLe as bs else false

def insertLex (x : List Char) : List (List Char) → List (List Char)
  | [] => [x]
  | y :: ys => if lexLe x y then x :: y :: ys else y :: insertLex x ys

/-- Model of Python `sorted` on a list of strings (stable insertion sort). -/
def sortLex : List (List Char) → List (List Char)
  | [] => []
  | x :: xs => insertLex x (sortLex xs)

/-- Model of `"*".join(...)`. -/
def joinStar : List (List Char) → List Char
  | [] => []
  | [f] => f
  | f :: fs => f ++ '*' :: joinStar fs

/-- The preprocessing chain of `_norm`:
`txt.lower().replace(" ", "").strip().replace(")(", ")*(")`. -/
def normPre (txt : List Char) : List Char :=
  replParen (stripWs (removeSpaces (txt.map pyLower)))

/-- Model of `MathTutorApp._norm` (src/Quiz.py lines 111-117). -/
def norm (txt : List Char) : List Char :=
  let expr := normPre txt
  if '*' ∈ expr then
    joinStar (sortLex (((splitStar expr).filter (fun f => f ≠ [])).map stripParens))
  else stripParens expr

/- ───────────── Sanitizer ───────────── -/

/-- Case-insensitive character comparison (regex flag `re.I`, ASCII). -/
def ciEq (a b : Char) : Bool := pyLower a = pyLower b

/-- Case-sensitive character comparison. -/
def chEq (a b : Char) : Bool := a = b

/-- Does `pat` match at the head of the text (under comparison `eqc`)? -/
def patAt (eqc : Char → Char → Bool) : List Char → List Char → Bool
  | [], _ => true
  | _ :: _, [] => false
  | p :: ps, c :: cs => eqc p c && patAt eqc ps cs

/-- First occurrence of `pat`: returns the text before the occurrence and
the text after it. -/
def findSplit (eqc : Char → Char → Bool) (pat : List Char) :
    List Char → Option (List Char × List Char)
  | [] => none
  | c :: rest =>
    if patAt eqc pat (c :: rest) then some ([], (c :: rest).drop pat.length)
    else
      match findSplit eqc pat rest with
      | none => none
      | some (a, b) => some (c :: a, b)

/-- `pat` occurs somewhere in `s`. -/
def occursPat (eqc : Char → Char → Bool) (pat s : List Char) : Bool :=
  (findSplit eqc pat s).isSome

/-- Fuel-indexed engine for `re.sub(open .*? close, replacement, s)` with a
non-greedy body: repeatedly find the first `op`, then the first `cl` after
it, drop the delimiters (keeping the inner text iff `keep`), and continue
after the closing delimiter.  If either delimiter is absent the rest of the
text is returned unchanged, as `re.sub` leaves unmatched text alone. -/
def subPairF (eqc : Char → Char → Bool) (op cl : List Char) (keep : Bool) :
    Nat → List Char → List Char
  | 0, s => s
  | fuel + 1, s =>
    match findSplit eqc op s with
    | none => s
    | some (pre, rest) =>
      match findSplit eqc cl rest with
      | none => s
      | some (inner, post) =>
        pre ++ (if keep then inner else []) ++ subPairF eqc op cl keep fuel post

def subPair (eqc : Char → Char → Bool) (op cl : List Char) (keep : Bool)
    (s : List Char) : List Char :=
  subPairF eqc op cl keep (s.length + 1) s

def thinkOpen : List Char := "<think>".toList
def thinkClose : List Char := "</think>".toList

/-- Model of `re.sub(r"<think>.*?</think>", "", text, flags=re.I | re.S)`
(src/Quiz.py line 123). -/
def strip_think (s : List Char) : List Char :=
  subPair ciEq thinkOpen thinkClose false s

def reasonWords : List (List Char) :=
  ["thought".toList, "razonamiento".toList, "assistant reasoning".toList]

/-- One of the reasoning words matches (case-insensitively) at the head. -/
def reasonAt (s : List Char) : Bool := reasonWords.any (fun w => patAt ciEq w s)

inductive RState
  | scan
  | ws
  | line

/-- Scanner for `re.sub(r"(?m)^\s*(thought|razonamiento|assistant reasoning).*", "", s, flags=re.I)`
(src/Quiz.py line 124).  A match starts at a line start, consumes the
(possibly multi-line) whitespace run, the word and the rest of that line.
`ws` = inside the whitespace run of a match, `line` = consuming the rest of
the matched line; the Bool records whether the position is a line start. -/
def stripReasonGo : RState → Bool → List Char → List Char
  | _, _, [] => []
  | RState.ws, _, c :: rest =>
    if pyIsSpace c then stripReasonGo RState.ws false rest
    else stripReasonGo RState.line false rest
  | RState.line, _, c :: rest =>
    if c = '\n' then '\n' :: stripReasonGo RState.scan true rest
    else stripReasonGo RState.line false rest
  | RState.scan, atStart, c :: rest =>
    if atStart ∧ reasonAt ((c :: rest).dropWhile pyIsSpace) then
      (if pyIsSpace c then stripReasonGo RState.ws false rest
       else stripReasonGo RState.line false rest)
    else c :: stripReasonGo RState.scan (c = '\n') rest

def strip_reason_lines (s : List Char) : List Char :=
  stripReasonGo RState.scan true s

inductive HState
  | scan
  | hash
  | ws (nl : Bool)

/-- Scanner for `re.sub(r"(?m)^#+\s*", "", s)` (src/Quiz.py line 125).
`hash` = consuming the run of `#`, `ws nl` = consuming the following
whitespace run (`nl` records whether the last consumed char was a newline,
i.e. whether the current position is a line start). -/
def stripHeadersGo : HState → Bool → List Char → List Char
  | _, _, [] => []
  | HState.hash, _, c :: rest =>
    if c = '#' then stripHeadersGo HState.hash false rest
    else if pyIsSpace c then stripHeadersGo (HState.ws (c = '\n')) false rest
    else c :: stripHeadersGo HState.scan false rest
  | HState.ws nl, _, c :: rest =>
    if pyIsSpace c then stripHeadersGo (HState.ws (c = '\n')) false rest
    else if nl ∧ c = '#' then stripHeadersGo HState.hash false rest
    else c :: stripHeadersGo HState.scan false rest
  | HState.scan, atStart, c :: rest =>
    if atStart ∧ c = '#' then stripHeadersGo HState.hash false rest
    else c :: stripHeadersGo HState.scan (c = '\n') rest

def strip_headers (s : List Char) : List Char :=
  stripHeadersGo HState.scan true s

def latexInlineOpen : List Char := "\\(".toList
def latexInlineClose : List Char := "\\)".toList
def latexBlockOpen : List Char := "\\[".toList
def latexBlockClose : List Char := "\\]".toList
def dollarDelim : List Char := "$$".toList

/-- Model of `re.sub(r"\\\((.*?)\\\)", r"\1", s, flags=re.S)`
(src/Quiz.py lines 127/129 and 133). -/
def unwrapInline (s : List Char) : List Char :=
  subPair chEq latexInlineOpen latexInlineClose true s

/-- Model of `re.sub(r"\\\[([\s\S]*?)\\\]", r"\1", s)`
(src/Quiz.py lines 128/130 and 134). -/
def unwrapBlock (s : List Char) : List Char :=
  subPair chEq latexBlockOpen latexBlockClose true s

/-- Model of `re.sub(r"\$\$([\s\S]*?)\$\$", r"\1", s)` (src/Quiz.py line 135). -/
def unwrapDollars (s : List Char) : List Char :=
  subPair chEq dollarDelim dollarDelim true s

/-- ASCII model of the regex class `\w`. -/
def isWordChar (c : Char) : Bool := c.isAlphanum || c = '_'

/-- Model of `re.sub(r"\((\w)\)", r"\1", s)` (src/Quiz.py line 138):
left-to-right collapse of single word-character parenthesized groups. -/
def collapseParens : List Char → List Char
  | '(' :: c :: ')' :: rest =>
    if isWordChar c then c :: collapseParens rest
    else '(' :: collapseParens (c :: ')' :: rest)
  | c :: rest => c :: collapseParens rest
  | [] => []

/-- The superscript translation table `str.maketrans("0123456789", "⁰¹²³⁴⁵⁶⁷⁸⁹")`. -/
def supChar : Char → Char
  | '0' => '⁰'
  | '1' => '¹'
  | '2' => '²'
  | '3' => '³'
  | '4' => '⁴'
  | '5' => '⁵'
  | '6' => '⁶'
  | '7' => '⁷'
  | '8' => '⁸'
  | '9' => '⁹'
  | c => c

def headDigit : List Char → Bool
  | c :: _ => c.isDigit
  | [] => false

/-- Scanner for `re.sub(r"\^([0-9]+)", ..., s)` (src/Quiz.py lines 142-146):
a caret followed by at least one ASCII digit is dropped and the digit run
is mapped to superscripts.  The Bool tracks being inside a digit run. -/
def supGo : Bool → List Char → List Char
  | _, [] => []
  | inRun, c :: rest =>
    if inRun ∧ c.isDigit then supChar c :: supGo true rest
    else if c = '^' ∧ headDigit rest then supGo true rest
    else c :: supGo false rest

def sup_exponents (s : List Char) : List Char := supGo false s

/-- Model of `MathTutorApp._strip_hidden_thoughts` (src/Quiz.py lines
119-148), applying each regex substitution in source order, then
`.replace("#", "").strip()`. -/
def strip_hidden_thoughts (s : List Char) : List Char :=
  stripWs ((sup_exponents (collapseParens (unwrapDollars (unwrapBlock
    (unwrapInline (unwrapBlock (unwrapInline (strip_headers
      (strip_reason_lines (strip_think s)))))))))).filter (fun c => c ≠ '#'))

/- ───────────── Verification predicates and helpers ───────────── -/

/-- No occurrence of the two-character pattern `)(`. -/
def noPP : List Char → Bool
  | c :: d :: rest => !(c = ')' && d = '(') && noPP (d :: rest)
  | _ => true

/-- The ordering relation used by the factor sort, as a relation in `Prop`. -/
def LexR (a b : List Char) : Prop := lexLe a b = true

/-- A product of parenthesized factors: `(f1)(f2)...(fn)`. -/
def renderProd (fs : List (List Char)) : List Char :=
  (fs.map (fun f => '(' :: (f ++ [')']))).flatten

/-- Join lines with newline separators. -/
def joinNl : List (List Char) → List Char
  | [] => []
  | [l] => l
  | l :: ls => l ++ '\n' :: joinNl ls

/-- The preprocessing chain as the specification words it: lower-case,
remove all whitespace characters, then rewrite `)(` to `)*(` (the code
instead removes only spaces and trims whitespace at the two ends). -/
def specNormPre (txt : List Char) : List Char :=
  replParen ((txt.map pyLower).filter (fun c => !pyIsSpace c))

/- ───────────── Character-level lemmas ───────────── -/

theorem char_eq_of_toNat_eq {c d : Char} (h : c.toNat = d.toNat) : c = d :=
  Char.ext_iff.mpr (UInt32.ext h)

theorem char_eq_iff_toNat {c d : Char} : c = d ↔ c.toNat = d.toNat :=
  ⟨fun h => h ▸ rfl, char_eq_of_toNat_eq⟩

theorem pyLower_toNat (c : Char) :
    (pyLower c).toNat = if 65 ≤ c.toNat ∧ c.toNat ≤ 90 then c.toNat + 32 else c.toNat := by
  unfold pyLower
  split <;> rfl

theorem pyLower_eq_self {c : Char} (h : ¬(65 ≤ c.toNat ∧ c.toNat ≤ 90)) : pyLower c = c := by
  unfold pyLower
  rw [dif_neg h]

theorem isUpperA_pyLower (c : Char) : isUpperA (pyLower c) = false := by
  have h := pyLower_toNat c
  by_cases hc : 65 ≤ c.toNat ∧ c.toNat ≤ 90
  · rw [if_pos hc] at h
    simp only [isUpperA, Bool.and_eq_false_iff, decide_eq_false_iff_not]
    omega
  · rw [if_neg hc] at h
    simp only [isUpperA, Bool.and_eq_false_iff, decide_eq_false_iff_not]
    omega

theorem pyLower_pyLower (c : Char) : pyLower (pyLower c) = pyLower c := by
  have h := isUpperA_pyLower c
  simp only [isUpperA, Bool.and_eq_false_iff, decide_eq_false_iff_not] at h
  apply pyLower_eq_self
  intro hc
  rcases h with h | h <;> omega

theorem pyLower_eq_rigid {t : Char} (h1 : ¬(97 ≤ t.toNat ∧ t.toNat ≤ 122))
    (h2 : ¬(65 ≤ t.toNat ∧ t.toNat ≤ 90)) (c : Char) :
    pyLower c = t ↔ c = t := by
  constructor
  · intro h
    by_cases hc : 65 ≤ c.toNat ∧ c.toNat ≤ 90
    · exfalso
      have ht := pyLower_toNat c
      rw [if_pos hc, h] at ht
      exact h1 (by omega)
    · rwa [pyLower_eq_self hc] at h
  · intro h
    subst h
    exact pyLower_eq_self h2

theorem pyIsSpace_iff_toNat {c : Char} :
    pyIsSpace c = true ↔
      (c.toNat = 32 ∨ c.toNat = 9 ∨ c.toNat = 10 ∨ c.toNat = 13 ∨
        c.toNat = 11 ∨ c.toNat = 12) := by
  unfold pyIsSpace
  simp only [Bool.or_eq_true, decide_eq_true_eq]
  constructor
  · rintro (((((h | h) | h) | h) | h) | h) <;> subst h <;> simp
  · rintro (h | h | h | h | h | h) <;>
      [skip; skip; skip; skip; skip; skip] <;>
      first
        | (left; left; left; left; left; exact char_eq_of_toNat_eq (by rw [h]; rfl))
        | (left; left; left; left; right; exact char_eq_of_toNat_eq (by rw [h]; rfl))
        | (left; left; left; right; exact char_eq_of_toNat_eq (by rw [h]; rfl))
        | (left; left; right; exact char_eq_of_toNat_eq (by rw [h]; rfl))
        | (left; right; exact char_eq_of_toNat_eq (by rw [h]; rfl))
        | (right; exact char_eq_of_toNat_eq (by rw [h]; rfl))

theorem pyIsSpace_pyLower (c : Char) : pyIsSpace (pyLower c) = pyIsSpace c := by
  by_cases hc : 65 ≤ c.toNat ∧ c.toNat ≤ 90
  · have h := pyLower_toNat c
    rw [if_pos hc] at h
    have h1 : ¬(pyIsSpace (pyLower c) = true) := by
      rw [pyIsSpace_iff_toNat]
      omega
    have h2 : ¬(pyIsSpace c = true) := by
      rw [pyIsSpace_iff_toNat]
      omega
    rw [Bool.not_eq_true] at h1 h2
    rw [h1, h2]
  · rw [pyLower_eq_self hc]

theorem ciEq_iff {a b : Char} : ciEq a b = true ↔ pyLower a = pyLower b := by
  simp [ciEq]

theorem ciEq_refl (a : Char) : ciEq a a = true := by
  simp [ciEq]

theorem chEq_iff {a b : Char} : chEq a b = true ↔ a = b := by
  simp [chEq]

theorem chEq_refl (a : Char) : chEq a a = true := by
  simp [chEq]

/-- For a character that is neither an ASCII letter's lower-case image nor an
upper-case letter, case-insensitive equality is plain equality. -/
theorem ciEq_rigid {t : Char} (h1 : ¬(97 ≤ t.toNat ∧ t.toNat ≤ 122))
    (h2 : ¬(65 ≤ t.toNat ∧ t.toNat ≤ 90)) (c : Char) :
    ciEq t c = true ↔ c = t := by
  rw [ciEq_iff, pyLower_eq_self h2, eq_comm]
  exact pyLower_eq_rigid h1 h2 c

/- ───────────── Trim lemmas ───────────── -/

theorem dropWhile_eq_self_of_head {p : Char → Bool} {l : List Char}
    (h : ∀ c, l.head? = some c → p c = false) : l.dropWhile p = l := by
  cases l with
  | nil => rfl
  | cons c rest =>
    rw [List.dropWhile_cons, h c rfl]
    simp

theorem mem_dropWhile {p : Char → Bool} {l : List Char} {c : Char}
    (h : c ∈ l.dropWhile p) : c ∈ l :=
  (List.dropWhile_sublist p).mem h

theorem mem_pyStrip {p : Char → Bool} {l : List Char} {c : Char}
    (h : c ∈ pyStrip p l) : c ∈ l := by
  unfold pyStrip at h
  rw [List.mem_reverse] at h
  have h2 := mem_dropWhile h
  rw [List.mem_reverse] at h2
  exact mem_dropWhile h2

theorem pyStrip_eq_self {p : Char → Bool} {l : List Char}
    (h1 : ∀ c, l.head? = some c → p c = false)
    (h2 : ∀ c, l.getLast? = some c → p c = false) : pyStrip p l = l := by
  unfold pyStrip
  rw [dropWhile_eq_self_of_head h1]
  rw [dropWhile_eq_self_of_head (fun c hc => h2 c (by rwa [← List.head?_reverse]))]
  exact List.reverse_reverse l

theorem pyStrip_eq_self_of_forall {p : Char → Bool} {l : List Char}
    (h : ∀ c ∈ l, p c = false) : pyStrip p l = l :=
  pyStrip_eq_self
    (fun c hc => h c (List.mem_of_mem_head? (by simp [hc])))
    (fun c hc => h c (List.mem_of_mem_getLast? (by simp [hc])))

/-- The right trim keeps a leading portion of its input. -/
theorem pyStrip_tail_decomp (p : Char → Bool) (l : List Char) :
    ∃ u, (pyStrip p l) ++ u = l.dropWhile p := by
  unfold pyStrip
  obtain ⟨u, hu⟩ := List.dropWhile_suffix (l := (l.dropWhile p).reverse) p
  exact ⟨u.reverse, by rw [← List.reverse_append, hu, List.reverse_reverse]⟩

theorem head?_pyStrip {p : Char → Bool} {l : List Char} {c : Char}
    (h : (pyStrip p l).head? = some c) : p c = false := by
  obtain ⟨u, hu⟩ := pyStrip_tail_decomp p l
  have hne : pyStrip p l ≠ [] := by
    intro he
    rw [he] at h
    exact Option.noConfusion h
  have hh : (l.dropWhile p).head? = some c := by
    rw [← hu, List.head?_append_of_ne_nil _ hne]
    exact h
  have := List.head?_dropWhile_not p l
  rw [hh] at this
  exact this

theorem getLast?_pyStrip {p : Char → Bool} {l : List Char} {c : Char}
    (h : (pyStrip p l).getLast? = some c) : p c = false := by
  unfold pyStrip at h
  rw [List.getLast?_eq_head?_reverse, List.reverse_reverse] at h
  have := List.head?_dropWhile_not p (l.dropWhile p).reverse
  rw [h] at this
  exact this

theorem pyStrip_idem (p : Char → Bool) (l : List Char) :
    pyStrip p (pyStrip p l) = pyStrip p l :=
  pyStrip_eq_self (fun _ hc => head?_pyStrip hc) (fun _ hc => getLast?_pyStrip hc)

/- ───────────── replParen lemmas ───────────── -/

theorem replParen_cons_not_open {l : List Char} (c : Char) (h : l.head? ≠ some '(') :
    replParen (c :: l) = c :: replParen l := by
  cases l with
  | nil => rfl
  | cons d r =>
    rw [replParen]
    rw [if_neg]
    intro hcd
    apply h
    rw [hcd.2]
    rfl

theorem replParen_cons_not_close {l : List Char} {c : Char} (h : c ≠ ')') :
    replParen (c :: l) = c :: replParen l := by
  cases l with
  | nil => rfl
  | cons d r =>
    rw [replParen]
    rw [if_neg]
    intro hcd
    exact h hcd.1

theorem head?_replParen (l : List Char) : (replParen l).head? = l.head? := by
  match l with
  | [] => rfl
  | [c] => rfl
  | c :: d :: rest =>
    rw [replParen]
    split
    · next hcd => rw [hcd.1]; rfl
    · rfl

theorem replParen_append_no_junction {a b : List Char}
    (h : ¬(a.getLast? = some ')' ∧ b.head? = some '(')) :
    replParen (a ++ b) = replParen a ++ replParen b := by
  match a with
  | [] => simp [replParen]
  | [c] =>
    cases b with
    | nil => simp [replParen]
    | cons d r =>
      have hx : replParen (c :: d :: r) = c :: replParen (d :: r) := by
        rw [replParen, if_neg]
        intro hcd
        exact h ⟨by rw [hcd.1]; rfl, by rw [hcd.2]; rfl⟩
      simpa using hx
  | c :: c' :: rest =>
    rw [List.cons_append, List.cons_append, replParen, replParen]
    split
    · next hcd =>
      have hrec : replParen (rest ++ b) = replParen rest ++ replParen b := by
        match rest with
        | [] => simp [replParen]
        | e :: rest' =>
          apply replParen_append_no_junction
          intro hj
          exact h ⟨by rw [← hj.1]; rfl, hj.2⟩
      simp [hrec]
    · next hcd =>
      have hrec : replParen ((c' :: rest) ++ b) = replParen (c' :: rest) ++ replParen b := by
        apply replParen_append_no_junction
        intro hj
        exact h ⟨by rw [← hj.1]; rfl, hj.2⟩
      simp only [List.cons_append] at hrec
      rw [hrec]
      simp

theorem replParen_append_junction {a b : List Char} (ha : a.getLast? = some ')')
    (hb : b.head? = some '(') :
    replParen (a ++ b) = replParen a ++ '*' :: replParen b := by
  match a with
  | [] => exact absurd ha (by simp)
  | [c] =>
    have hc : c = ')' := by simpa using ha
    subst hc
    cases b with
    | nil => exact absurd hb (by simp)
    | cons d r =>
      have hd : d = '(' := by simpa using hb
      subst hd
      rw [List.singleton_append]
      rw [replParen_cons_not_close (c := '(') (l := r) (by decide)]
      simp [replParen]
  | c :: c' :: rest =>
    rw [List.cons_append, List.cons_append, replParen, replParen]
    split
    · next hcd =>
      match rest with
      | [] =>
        exfalso
        have hcl : c' = ')' := by simpa using ha
        rw [hcd.2] at hcl
        exact absurd hcl (by decide)
      | e :: rest' =>
        have hrec := replParen_append_junction (a := e :: rest') (b := b)
          (by simpa using ha) hb
        simp only [List.cons_append] at hrec
        simp [hrec]
    · next hcd =>
      have hrec := replParen_append_junction (a := c' :: rest) (b := b)
        (by simpa using ha) hb
      simp only [List.cons_append] at hrec
      rw [hrec]
      simp

theorem noPP_cons_head {c : Char} {l : List Char}
    (h : ∀ d, l.head? = some d → ¬(c = ')' ∧ d = '(')) (hl : noPP l = true) :
    noPP (c :: l) = true := by
  cases l with
  | nil => rfl
  | cons d r =>
    rw [noPP, Bool.and_eq_true]
    refine ⟨?_, hl⟩
    have := h d rfl
    simp only [Bool.not_eq_true', Bool.and_eq_false_iff, decide_eq_false_iff_not]
    by_cases hc : c = ')'
    · exact Or.inr (fun hd => this ⟨hc, hd⟩)
    · exact Or.inl hc

theorem replParen_eq_self_of_noPP {l : List Char} (h : noPP l = true) :
    replParen l = l := by
  match l with
  | [] => rfl
  | [c] => rfl
  | c :: d :: rest =>
    rw [noPP, Bool.and_eq_true] at h
    rw [replParen, if_neg]
    · rw [replParen_eq_self_of_noPP h.2]
    · intro hcd
      rw [Bool.not_eq_true', Bool.and_eq_false_iff] at h
      rcases h.1 with h1 | h1 <;> simp [hcd.1, hcd.2] at h1

theorem noPP_replParen (l : List Char) : noPP (replParen l) = true := by
  match l with
  | [] => rfl
  | [c] => rfl
  | c :: d :: rest =>
    rw [replParen]
    split
    · next hcd =>
      apply noPP_cons_head
      · intro e he hx
        simp only [List.head?_cons, Option.some.injEq] at he
        rw [← he] at hx
        exact absurd hx.2 (by decide)
      · apply noPP_cons_head
        · intro e he hx
          exact absurd hx.1 (by decide)
        · apply noPP_cons_head
          · intro e he hx
            exact absurd hx.1 (by decide)
          · exact noPP_replParen rest
    · next hcd =>
      apply noPP_cons_head
      · intro e he hx
        rw [head?_replParen] at he
        simp only [List.head?_cons, Option.some.injEq] at he
        exact hcd ⟨hx.1, he ▸ hx.2⟩
      · exact noPP_replParen (d :: rest)

theorem noPP_append_left {a b : List Char} (h : noPP (a ++ b) = true) : noPP a = true := by
  match a with
  | [] => rfl
  | [c] => rfl
  | c :: d :: rest =>
    rw [List.cons_append, List.cons_append, noPP, Bool.and_eq_true] at h
    rw [noPP, Bool.and_eq_true]
    exact ⟨h.1, noPP_append_left (a := d :: rest) (by simpa using h.2)⟩

theorem noPP_append_right {a b : List Char} (h : noPP (a ++ b) = true) : noPP b = true := by
  induction a with
  | nil => exact h
  | cons c rest ih =>
    apply ih
    rw [List.cons_append] at h
    cases hcr : rest ++ b with
    | nil => rfl
    | cons e r =>
      rw [hcr, noPP, Bool.and_eq_true] at h
      exact h.2

/- ───────────── splitStar and joinStar lemmas ───────────── -/

theorem splitStar_ne_nil (l : List Char) : splitStar l ≠ [] := by
  cases l with
  | nil => simp [splitStar]
  | cons c rest =>
    rw [splitStar]
    split
    · simp
    · split <;> simp

theorem splitStar_of_not_mem {l : List Char} (h : '*' ∉ l) : splitStar l = [l] := by
  induction l with
  | nil => rfl
  | cons c rest ih =>
    rw [splitStar, if_neg (by intro hc; exact h (hc ▸ List.mem_cons_self c rest))]
    rw [ih (fun hm => h (List.mem_cons_of_mem c hm))]

theorem splitStar_append_star (a b : List Char) :
    splitStar (a ++ '*' :: b) = splitStar a ++ splitStar b := by
  induction a with
  | nil => simp [splitStar]
  | cons c a' ih =>
    rw [List.cons_append, splitStar, splitStar]
    by_cases hc : c = '*'
    · rw [if_pos hc, if_pos hc, ih]
      simp
    · rw [if_neg hc, if_neg hc, ih]
      cases hsa : splitStar a' with
      | nil => exact absurd hsa (splitStar_ne_nil a')
      | cons p ps => simp

theorem joinStar_cons_cons (f g : List Char) (fs : List (List Char)) :
    joinStar (f :: g :: fs) = f ++ '*' :: joinStar (g :: fs) := rfl

theorem joinStar_splitStar (l : List Char) : joinStar (splitStar l) = l := by
  induction l with
  | nil => rfl
  | cons c rest ih =>
    rw [splitStar]
    by_cases hc : c = '*'
    · rw [if_pos hc]
      cases hsr : splitStar rest with
      | nil => exact absurd hsr (splitStar_ne_nil rest)
      | cons p ps =>
        rw [joinStar_cons_cons, List.nil_append, hc]
        rw [hsr] at ih
        rw [ih]
    · rw [if_neg hc]
      cases hsr : splitStar rest with
      | nil => exact absurd hsr (splitStar_ne_nil rest)
      | cons p ps =>
        rw [hsr] at ih
        cases ps with
        | nil =>
          rw [joinStar]
          rw [joinStar] at ih
          rw [ih]
        | cons q qs =>
          rw [joinStar_cons_cons] at ih ⊢
          rw [List.cons_append, ih]

theorem not_star_of_mem_splitStar {l f : List Char} (hf : f ∈ splitStar l) : '*' ∉ f := by
  induction l generalizing f with
  | nil =>
    simp [splitStar] at hf
    simp [hf]
  | cons c rest ih =>
    rw [splitStar] at hf
    by_cases hc : c = '*'
    · rw [if_pos hc] at hf
      rcases List.mem_cons.mp hf with h | h
      · simp [h]
      · exact ih h
    · rw [if_neg hc] at hf
      cases hsr : splitStar rest with
      | nil => exact absurd hsr (splitStar_ne_nil rest)
      | cons p ps =>
        rw [hsr] at hf
        rcases List.mem_cons.mp hf with h | h
        · subst h
          intro hm
          rcases List.mem_cons.mp hm with h' | h'
          · exact hc h'.symm
          · exact ih (hsr ▸ List.mem_cons_self p ps) h'
        · exact ih (hsr ▸ List.mem_cons_of_mem p h)

theorem splitStar_joinStar {fs : List (List Char)} (hne : fs ≠ [])
    (h : ∀ f ∈ fs, '*' ∉ f) : splitStar (joinStar fs) = fs := by
  match fs with
  | [f] => exact splitStar_of_not_mem (h f (List.mem_cons_self f []))
  | f :: g :: fs' =>
    rw [joinStar_cons_cons, splitStar_append_star]
    rw [splitStar_of_not_mem (h f (List.mem_cons_self f _))]
    rw [splitStar_joinStar (by simp) (fun x hx => h x (List.mem_cons_of_mem f hx))]
    rfl

theorem splitStar_head_decomp {l p : List Char} {ps : List (List Char)}
    (h : splitStar l = p :: ps) : ∃ y, l = p ++ y := by
  induction l generalizing p ps with
  | nil =>
    simp [splitStar] at h
    exact ⟨[], by simp [h.1]⟩
  | cons c rest ih =>
    rw [splitStar] at h
    by_cases hc : c = '*'
    · rw [if_pos hc] at h
      have hp : p = [] := (List.cons.injEq _ _ _ _ ▸ h).1.symm
      exact ⟨c :: rest, by simp [hp]⟩
    · rw [if_neg hc] at h
      cases hsr : splitStar rest with
      | nil => exact absurd hsr (splitStar_ne_nil rest)
      | cons q qs =>
        rw [hsr] at h
        have hp : p = c :: q := (List.cons.injEq _ _ _ _ ▸ h).1.symm
        obtain ⟨y, hy⟩ := ih hsr
        exact ⟨y, by simp [hp, hy]⟩

theorem mem_splitStar_decomp {l f : List Char} (hf : f ∈ splitStar l) :
    ∃ x y, l = x ++ f ++ y := by
  induction l generalizing f with
  | nil =>
    simp [splitStar] at hf
    exact ⟨[], [], by simp [hf]⟩
  | cons c rest ih =>
    rw [splitStar] at hf
    by_cases hc : c = '*'
    · rw [if_pos hc] at hf
      rcases List.mem_cons.mp hf with h | h
      · exact ⟨[], c :: rest, by simp [h]⟩
      · obtain ⟨x, y, hxy⟩ := ih h
        exact ⟨c :: x, y, by simp [hxy]⟩
    · rw [if_neg hc] at hf
      cases hsr : splitStar rest with
      | nil => exact absurd hsr (splitStar_ne_nil rest)
      | cons p ps =>
        rw [hsr] at hf
        rcases List.mem_cons.mp hf with h | h
        · subst h
          obtain ⟨y, hy⟩ := splitStar_head_decomp hsr
          exact ⟨[], y, by simp [hy]⟩
        · obtain ⟨x, y, hxy⟩ := ih (hsr ▸ List.mem_cons_of_mem p h)
          exact ⟨c :: x, y, by simp [hxy]⟩

/- ───────────── sorting lemmas ───────────── -/

theorem char_lt_iff_toNat {a b : Char} : a < b ↔ a.toNat < b.toNat :=
  Char.lt_iff_val_lt_val

theorem lexLe_total (a b : List Char) : lexLe a b = true ∨ lexLe b a = true := by
  induction a generalizing b with
  | nil => exact Or.inl rfl
  | cons x xs ih =>
    cases b with
    | nil => exact Or.inr rfl
    | cons y ys =>
      rw [lexLe, lexLe]
      rcases Nat.lt_trichotomy x.toNat y.toNat with h | h | h
      · left
        rw [if_pos (char_lt_iff_toNat.mpr h)]
      · have hxy : x = y := char_eq_of_toNat_eq h
        subst hxy
        rw [if_neg (by rw [char_lt_iff_toNat]; omega), if_pos rfl]
        rw [if_neg (by rw [char_lt_iff_toNat]; omega), if_pos rfl]
        exact ih ys
      · right
        rw [if_pos (char_lt_iff_toNat.mpr h)]

theorem lexLe_antisymm {a b : List Char} (h1 : lexLe a b = true)
    (h2 : lexLe b a = true) : a = b := by
  induction a generalizing b with
  | nil =>
    cases b with
    | nil => rfl
    | cons y ys => exact absurd h2 (by rw [lexLe]; simp)
  | cons x xs ih =>
    cases b with
    | nil => exact absurd h1 (by rw [lexLe]; simp)
    | cons y ys =>
      rw [lexLe] at h1 h2
      by_cases hxy : x = y
      · subst hxy
        rw [if_neg (by rw [char_lt_iff_toNat]; omega), if_pos rfl] at h1 h2
        rw [ih h1 h2]
      · exfalso
        rcases Nat.lt_trichotomy x.toNat y.toNat with h | h | h
        · rw [if_neg (by rw [char_lt_iff_toNat]; omega),
            if_neg (fun he => hxy he.symm)] at h2
          exact Bool.false_ne_true h2
        · exact hxy (char_eq_of_toNat_eq h)
        · rw [if_neg (by rw [char_lt_iff_toNat]; omega), if_neg hxy] at h1
          exact Bool.false_ne_true h1

theorem lexLe_trans {a b c : List Char} (h1 : lexLe a b = true)
    (h2 : lexLe b c = true) : lexLe a c = true := by
  induction a generalizing b c with
  | nil => rfl
  | cons x xs ih =>
    cases b with
    | nil => exact absurd h1 (by rw [lexLe]; simp)
    | cons y ys =>
      cases c with
      | nil => exact absurd h2 (by rw [lexLe]; simp)
      | cons z zs =>
        rw [lexLe] at h1 h2 ⊢
        by_cases hxy : x < y
        · by_cases hyz : y < z
          · rw [if_pos (char_lt_iff_toNat.mpr (by
              rw [char_lt_iff_toNat] at hxy hyz; omega))]
          · rw [if_neg hyz] at h2
            by_cases hyz2 : y = z
            · subst hyz2
              rw [if_pos hxy]
            · rw [if_neg hyz2] at h2
              exact absurd h2 Bool.false_ne_true
        · rw [if_neg hxy] at h1
          by_cases hxy2 : x = y
          · subst hxy2
            rw [if_pos rfl] at h1
            by_cases hyz : x < z
            · rw [if_pos hyz]
            · rw [if_neg hyz] at h2 ⊢
              by_cases hyz2 : x = z
              · rw [if_pos hyz2] at h2 ⊢
                exact ih h1 h2
              · rw [if_neg hyz2] at h2
                exact absurd h2 Bool.false_ne_true
          · rw [if_neg hxy2] at h1
            exact absurd h1 Bool.false_ne_true

theorem insertLex_perm (x : List Char) (l : List (List Char)) :
    (insertLex x l).Perm (x :: l) := by
  induction l with
  | nil => exact List.Perm.refl _
  | cons y ys ih =>
    rw [insertLex]
    split
    · exact List.Perm.refl _
    · exact (ih.cons y).trans (List.Perm.swap x y ys)

theorem sortLex_perm (l : List (List Char)) : (sortLex l).Perm l := by
  induction l with
  | nil => exact List.Perm.refl _
  | cons x xs ih =>
    rw [sortLex]
    exact (insertLex_perm x (sortLex xs)).trans (ih.cons x)

theorem insertLex_sorted {x : List Char} {l : List (List Char)}
    (h : List.Sorted LexR l) : List.Sorted LexR (insertLex x l) := by
  induction l with
  | nil => simp [insertLex, List.Sorted]
  | cons y ys ih =>
    rw [insertLex]
    rw [List.sorted_cons] at h
    split
    · next hxy =>
      rw [List.sorted_cons]
      constructor
      · intro b hb
        rcases List.mem_cons.mp hb with hb | hb
        · exact hb ▸ hxy
        · exact lexLe_trans hxy (h.1 b hb)
      · rw [List.sorted_cons]
        exact h
    · next hxy =>
      rw [List.sorted_cons]
      constructor
      · intro b hb
        have hb2 := (insertLex_perm x ys).mem_iff.mp hb
        rcases List.mem_cons.mp hb2 with hb2 | hb2
        · rw [hb2]
          rcases lexLe_total x y with ht | ht
          · exact absurd ht hxy
          · exact ht
        · exact h.1 b hb2
      · exact ih h.2

theorem sortLex_sorted (l : List (List Char)) : List.Sorted LexR (sortLex l) := by
  induction l with
  | nil => simp [sortLex, List.Sorted]
  | cons x xs ih => exact insertLex_sorted ih

theorem sortLex_eq_of_perm {l₁ l₂ : List (List Char)} (h : l₁.Perm l₂) :
    sortLex l₁ = sortLex l₂ := by
  haveI : IsAntisymm (List Char) LexR := ⟨fun a b ha hb => lexLe_antisymm ha hb⟩
  exact List.eq_of_perm_of_sorted
    ((sortLex_perm l₁).trans (h.trans (sortLex_perm l₂).symm))
    (sortLex_sorted l₁) (sortLex_sorted l₂)

theorem sortLex_eq_self_of_sorted {l : List (List Char)}
    (h : List.Sorted LexR l) : sortLex l = l := by
  haveI : IsAntisymm (List Char) LexR := ⟨fun a b ha hb => lexLe_antisymm ha hb⟩
  exact List.eq_of_perm_of_sorted (sortLex_perm l) (sortLex_sorted l) h

/- ───────────── normalization of factor products (C3) ───────────── -/

theorem renderProd_cons (f : List Char) (fs : List (List Char)) :
    renderProd (f :: fs) = ('(' :: (f ++ [')'])) ++ renderProd fs := by
  simp [renderProd]

theorem getLast?_block (f : List Char) : ('(' :: (f ++ [')'])).getLast? = some ')' := by
  show (('(' :: f) ++ [')']).getLast? = some ')'
  rw [List.getLast?_append]
  rfl

theorem map_pyLower_renderProd (fs : List (List Char)) :
    (renderProd fs).map pyLower = renderProd (fs.map (List.map pyLower)) := by
  induction fs with
  | nil => rfl
  | cons f t ih =>
    simp [renderProd_cons, List.map_append, List.map_cons, ih,
      show pyLower '(' = '(' from by decide, show pyLower ')' = ')' from by decide]

theorem removeSpaces_renderProd (fs : List (List Char)) :
    removeSpaces (renderProd fs) = renderProd (fs.map removeSpaces) := by
  induction fs with
  | nil => rfl
  | cons f t ih =>
    rw [renderProd_cons, removeSpaces, List.filter_append, List.map_cons, renderProd_cons]
    rw [removeSpaces] at ih
    rw [ih]
    congr 1
    simp [removeSpaces]

theorem getLast?_renderProd_cons (f : List Char) (fs : List (List Char)) :
    (renderProd (f :: fs)).getLast? = some ')' := by
  induction fs generalizing f with
  | nil =>
    rw [renderProd_cons]
    show (('(' :: (f ++ [')'])) ++ []).getLast? = some ')'
    rw [List.append_nil]
    exact getLast?_block f
  | cons g t ih =>
    rw [renderProd_cons, List.getLast?_append]
    rw [ih g]
    rfl

theorem stripWs_renderProd (fs : List (List Char)) :
    stripWs (renderProd fs) = renderProd fs := by
  cases fs with
  | nil => rfl
  | cons f t =>
    apply pyStrip_eq_self
    · intro c hc
      rw [renderProd_cons] at hc
      simp only [List.cons_append, List.head?_cons, Option.some.injEq] at hc
      rw [← hc]
      decide
    · intro c hc
      rw [getLast?_renderProd_cons] at hc
      rw [← Option.some.injEq _ _ |>.mp hc]
      decide

theorem replParen_renderProd (fs : List (List Char)) :
    replParen (renderProd fs) =
      joinStar (fs.map (fun f => '(' :: (replParen f ++ [')']))) := by
  match fs with
  | [] => rfl
  | [f] =>
    show replParen (renderProd [f]) = joinStar [ '(' :: (replParen f ++ [')']) ]
    have hr : renderProd [f] = '(' :: (f ++ [')']) := by simp [renderProd]
    rw [hr]
    rw [replParen_cons_not_close (by decide)]
    rw [replParen_append_no_junction (by simp)]
    rfl
  | f :: g :: t =>
    rw [renderProd_cons]
    rw [replParen_append_junction (getLast?_block f) ?hb]
    case hb => rw [renderProd_cons]; rfl
    rw [replParen_renderProd (g :: t)]
    simp only [List.map_cons]
    rw [joinStar_cons_cons]
    congr 1
    rw [replParen_cons_not_close (by decide)]
    rw [replParen_append_no_junction (by simp)]
    rfl

theorem normPre_renderProd (fs : List (List Char)) :
    normPre (renderProd fs) =
      joinStar (fs.map (fun f =>
        '(' :: (replParen (removeSpaces (f.map pyLower)) ++ [')']))) := by
  unfold normPre
  rw [map_pyLower_renderProd, removeSpaces_renderProd, List.map_map, stripWs_renderProd,
    replParen_renderProd, List.map_map]
  rfl

theorem star_mem_joinStar_two (b1 b2 : List Char) (t : List (List Char)) :
    '*' ∈ joinStar (b1 :: b2 :: t) := by
  rw [joinStar_cons_cons]
  exact List.mem_append.mpr (Or.inr (List.mem_cons_self _ _))

theorem splitStar_joinStar_flatten {bs : List (List Char)} (h : bs ≠ []) :
    splitStar (joinStar bs) = (bs.map splitStar).flatten := by
  match bs with
  | [b] => simp [joinStar]
  | b :: b' :: t =>
    rw [joinStar_cons_cons, splitStar_append_star]
    rw [@splitStar_joinStar_flatten (b' :: t) (by simp)]
    simp

/-- `_norm` of a product of at least two parenthesized factors, in closed
form: the factor pieces are computed blockwise and then sorted. -/
theorem norm_renderProd_closed {fs : List (List Char)} (h2 : 2 ≤ fs.length) :
    norm (renderProd fs) =
      joinStar (sortLex ((((fs.map (fun f =>
        splitStar ('(' :: (replParen (removeSpaces (f.map pyLower)) ++ [')'])))).flatten).filter
          (fun f => f ≠ [])).map stripParens)) := by
  match fs with
  | f :: g :: t =>
    unfold norm
    rw [show normPre (renderProd (f :: g :: t)) =
      joinStar ((f :: g :: t).map (fun f =>
        '(' :: (replParen (removeSpaces (f.map pyLower)) ++ [')']))) from
      normPre_renderProd _]
    rw [if_pos (by
      rw [List.map_cons, List.map_cons]
      exact star_mem_joinStar_two _ _ _)]
    rw [splitStar_joinStar_flatten (by simp)]
    rw [List.map_map]
    rfl

/-- Normalization of a product of parenthesized factors is invariant under
permutation of the factors. -/
theorem norm_renderProd_perm {fs gs : List (List Char)} (h : fs.Perm gs) :
    norm (renderProd fs) = norm (renderProd gs) := by
  by_cases h2 : 2 ≤ fs.length
  · have h2g : 2 ≤ gs.length := h.length_eq ▸ h2
    rw [norm_renderProd_closed h2, norm_renderProd_closed h2g]
    congr 1
    apply sortLex_eq_of_perm
    apply List.Perm.map
    apply List.Perm.filter
    exact (h.map _).flatten
  · match fs, h, h2 with
    | [], h, _ =>
      rw [List.perm_nil.mp h.symm]
    | [f], h, _ =>
      rw [List.perm_singleton.mp h.symm]
    | f :: g :: t, _, h2 =>
      exact absurd (show 2 ≤ (f :: g :: t).length by
        rw [List.length_cons, List.length_cons]; omega) h2
/- ───────────── structure of norm outputs (C1, C2, C9) ───────────── -/

theorem list_map_eq_self {α : Type} {f : α → α} {l : List α}
    (h : ∀ c ∈ l, f c = c) : l.map f = l := by
  induction l with
  | nil => rfl
  | cons c rest ih =>
    rw [List.map_cons, h c (List.mem_cons_self c rest),
      ih (fun d hd => h d (List.mem_cons_of_mem c hd))]

theorem mem_replParen {l : List Char} {c : Char} (h : c ∈ replParen l) :
    c ∈ l ∨ c = '*' := by
  match l with
  | [] => exact absurd h (by simp [replParen])
  | [d] =>
    rw [replParen] at h
    exact Or.inl h
  | d :: d' :: rest =>
    rw [replParen] at h
    split at h
    · next hdd =>
      rcases List.mem_cons.mp h with h1 | h1
      · exact Or.inl (h1 ▸ (hdd.1 ▸ List.mem_cons_self _ _))
      rcases List.mem_cons.mp h1 with h2 | h2
      · exact Or.inr h2
      rcases List.mem_cons.mp h2 with h3 | h3
      · exact Or.inl (h3 ▸ (by rw [hdd.2]; exact List.mem_cons_of_mem _ (List.mem_cons_self _ _)))
      · rcases mem_replParen h3 with h4 | h4
        · exact Or.inl (List.mem_cons_of_mem _ (List.mem_cons_of_mem _ h4))
        · exact Or.inr h4
    · rcases List.mem_cons.mp h with h1 | h1
      · exact Or.inl (h1 ▸ List.mem_cons_self _ _)
      · rcases mem_replParen h1 with h4 | h4
        · exact Or.inl (List.mem_cons_of_mem _ h4)
        · exact Or.inr h4

theorem mem_joinStar {fs : List (List Char)} {c : Char} (h : c ∈ joinStar fs) :
    c = '*' ∨ ∃ f ∈ fs, c ∈ f := by
  match fs with
  | [] => exact absurd h (by simp [joinStar])
  | [f] => exact Or.inr ⟨f, List.mem_cons_self f [], h⟩
  | f :: g :: t =>
    rw [joinStar_cons_cons] at h
    rcases List.mem_append.mp h with h1 | h1
    · exact Or.inr ⟨f, List.mem_cons_self f _, h1⟩
    rcases List.mem_cons.mp h1 with h2 | h2
    · exact Or.inl h2
    · rcases mem_joinStar h2 with h3 | ⟨f', hf', hc⟩
      · exact Or.inl h3
      · exact Or.inr ⟨f', List.mem_cons_of_mem f hf', hc⟩

theorem noPP_glue {a b : List Char} (ha : noPP a = true) (hb : noPP b = true)
    (hj : ¬(a.getLast? = some ')' ∧ b.head? = some '(')) : noPP (a ++ b) = true := by
  match a with
  | [] => exact hb
  | [c] =>
    apply noPP_cons_head _ hb
    intro d hd hcd
    exact hj ⟨by rw [hcd.1]; rfl, by rw [hd, hcd.2]⟩
  | c :: c' :: rest =>
    rw [noPP, Bool.and_eq_true] at ha
    rw [List.cons_append, List.cons_append]
    apply noPP_cons_head
    · intro d hd hcd
      simp only [List.head?_cons, Option.some.injEq] at hd
      rw [Bool.not_eq_true', Bool.and_eq_false_iff] at ha
      rcases ha.1 with h1 | h1 <;> rw [decide_eq_false_iff_not] at h1
      · exact h1 hcd.1
      · exact h1 (hd.trans hcd.2)
    · rw [← List.cons_append]
      apply noPP_glue ha.2 hb
      intro hjj
      exact hj ⟨by rw [← hjj.1]; rfl, hjj.2⟩

theorem noPP_pyStrip {p : Char → Bool} {l : List Char} (h : noPP l = true) :
    noPP (pyStrip p l) = true := by
  obtain ⟨u, hu⟩ := pyStrip_tail_decomp p l
  obtain ⟨v, hv⟩ := List.dropWhile_suffix (l := l) p
  have h1 : noPP (l.dropWhile p) = true := noPP_append_right (hv ▸ h)
  exact noPP_append_left (a := pyStrip p l) (b := u) (hu ▸ h1)

theorem mem_normPre_lower {s : List Char} {c : Char} (h : c ∈ normPre s) :
    pyLower c = c := by
  unfold normPre at h
  rcases mem_replParen h with h1 | h1
  · have h2 := mem_pyStrip h1
    rw [removeSpaces] at h2
    have h3 := List.mem_of_mem_filter h2
    obtain ⟨d, -, hd⟩ := List.mem_map.mp h3
    rw [← hd]
    exact pyLower_pyLower d
  · rw [h1]
    decide

theorem mem_norm_cases {s : List Char} {c : Char} (h : c ∈ norm s) :
    c ∈ normPre s ∨ c = '*' := by
  unfold norm at h
  by_cases hstar : '*' ∈ normPre s
  · rw [if_pos hstar] at h
    rcases mem_joinStar h with h1 | ⟨f, hf, hc⟩
    · exact Or.inr h1
    · have hf2 := (sortLex_perm _).mem_iff.mp hf
      obtain ⟨g, hg, hgf⟩ := List.mem_map.mp hf2
      have hg2 := List.mem_of_mem_filter hg
      obtain ⟨x, y, hxy⟩ := mem_splitStar_decomp hg2
      rw [← hgf] at hc
      have hcg := mem_pyStrip hc
      exact Or.inl (hxy ▸ (List.mem_append.mpr (Or.inl (List.mem_append.mpr (Or.inr hcg)))))
  · rw [if_neg hstar] at h
    exact Or.inl (mem_pyStrip h)

theorem norm_lower_fixed {s : List Char} {c : Char} (h : c ∈ norm s) :
    pyLower c = c := by
  rcases mem_norm_cases h with h1 | h1
  · exact mem_normPre_lower h1
  · rw [h1]
    decide

theorem noPP_norm (s : List Char) : noPP (norm s) = true := by
  unfold norm
  have hex : noPP (normPre s) = true := noPP_replParen _
  by_cases hstar : '*' ∈ normPre s
  · rw [if_pos hstar]
    generalize hfs : sortLex (((splitStar (normPre s)).filter (fun f => f ≠ [])).map stripParens) = fs
    have hmem : ∀ f ∈ fs, noPP f = true := by
      intro f hf
      rw [← hfs] at hf
      have hf2 := (sortLex_perm _).mem_iff.mp hf
      obtain ⟨g, hg, hgf⟩ := List.mem_map.mp hf2
      have hg2 := List.mem_of_mem_filter hg
      obtain ⟨x, y, hxy⟩ := mem_splitStar_decomp hg2
      have hng : noPP g = true :=
        noPP_append_left (noPP_append_right (a := x) (by rw [← List.append_assoc, ← hxy]; exact hex))
      rw [← hgf]
      exact noPP_pyStrip hng
    clear hfs
    induction fs with
    | nil => rfl
    | cons f t ih =>
      cases t with
      | nil => exact hmem f (List.mem_cons_self f [])
      | cons g t' =>
        rw [joinStar_cons_cons]
        apply noPP_glue (hmem f (List.mem_cons_self f _))
        · apply noPP_cons_head
          · intro d hd hcd
            exact absurd hcd.1 (by decide)
          · exact ih (fun f' hf' => hmem f' (List.mem_cons_of_mem f hf'))
        · intro hj
          have hj2 := hj.2
          simp at hj2
  · rw [if_neg hstar]
    exact noPP_pyStrip hex

theorem norm_of_no_star {s : List Char} (h : '*' ∉ normPre s) :
    norm s = stripParens (normPre s) := by
  unfold norm
  rw [if_neg h]

theorem norm_of_star {s : List Char} (h : '*' ∈ normPre s) :
    norm s = joinStar (sortLex (((splitStar (normPre s)).filter
      (fun f => f ≠ [])).map stripParens)) := by
  unfold norm
  rw [if_pos h]

theorem star_normPre_of_star_norm {s : List Char} (h : '*' ∈ norm s) :
    '*' ∈ normPre s := by
  by_contra hn
  rw [norm_of_no_star hn] at h
  exact hn (mem_pyStrip h)

theorem mem_factors_stripped {s : List Char} {f : List Char}
    (hf : f ∈ sortLex (((splitStar (normPre s)).filter
      (fun g => g ≠ [])).map stripParens)) :
    ∃ g, f = stripParens g ∧ '*' ∉ g := by
  have hf2 := (sortLex_perm _).mem_iff.mp hf
  obtain ⟨g, hg, hgf⟩ := List.mem_map.mp hf2
  exact ⟨g, hgf.symm, not_star_of_mem_splitStar (List.mem_of_mem_filter hg)⟩

theorem splitStar_norm_of_star {s : List Char} (h : '*' ∈ norm s) :
    splitStar (norm s) = sortLex (((splitStar (normPre s)).filter
      (fun f => f ≠ [])).map stripParens) := by
  have hpre := star_normPre_of_star_norm h
  rw [norm_of_star hpre]
  apply splitStar_joinStar
  · intro hnil
    rw [norm_of_star hpre, hnil] at h
    exact absurd h (by simp [joinStar])
  · intro f hf
    obtain ⟨g, hfg, hgs⟩ := mem_factors_stripped hf
    intro hmem
    exact hgs (mem_pyStrip (hfg ▸ hmem))

theorem stripParens_norm_of_no_star {s : List Char} (h : '*' ∉ norm s) :
    stripParens (norm s) = norm s := by
  by_cases hpre : '*' ∈ normPre s
  · rw [norm_of_star hpre] at h ⊢
    cases hfs : sortLex (((splitStar (normPre s)).filter
      (fun f => f ≠ [])).map stripParens) with
    | nil => rfl
    | cons f t =>
      cases t with
      | nil =>
        show stripParens (joinStar [f]) = joinStar [f]
        obtain ⟨g, hfg, -⟩ := mem_factors_stripped (s := s)
          (hfs ▸ List.mem_cons_self f ([] : List (List Char)))
        show stripParens f = f
        rw [hfg]
        exact pyStrip_idem _ _
      | cons g t' =>
        rw [hfs] at h
        exact absurd (star_mem_joinStar_two f g t') h
  · rw [norm_of_no_star hpre]
    exact pyStrip_idem _ _

/-- The normalizer is a fixed point on its own output whenever that output
contains no whitespace character and, in the factored case, no empty
factor.  (In general this can fail, see the counterexample.) -/
theorem norm_norm_eq {s : List Char}
    (hw : ∀ c ∈ norm s, pyIsSpace c = false)
    (hf : '*' ∈ norm s → [] ∉ splitStar (norm s)) :
    norm (norm s) = norm s := by
  have hpre : normPre (norm s) = norm s := by
    unfold normPre
    have h1 : (norm s).map pyLower = norm s :=
      list_map_eq_self (fun c hc => norm_lower_fixed hc)
    rw [h1]
    have h2 : removeSpaces (norm s) = norm s := by
      rw [removeSpaces]
      apply List.filter_eq_self.mpr
      intro c hc
      have := hw c hc
      simp only [decide_eq_true_eq]
      intro he
      rw [he] at this
      exact absurd this (by decide)
    rw [h2]
    have h3 : stripWs (norm s) = norm s := pyStrip_eq_self_of_forall hw
    rw [h3]
    exact replParen_eq_self_of_noPP (noPP_norm s)
  by_cases hstar : '*' ∈ norm s
  · rw [norm_of_star (s := norm s) (by rw [hpre]; exact hstar)]
    rw [hpre]
    rw [splitStar_norm_of_star hstar]
    generalize hFS : sortLex (((splitStar (normPre s)).filter
      (fun f => f ≠ [])).map stripParens) = FS
    have hsorted : List.Sorted LexR FS := hFS ▸ sortLex_sorted _
    have hstripped : ∀ f ∈ FS, stripParens f = f := by
      intro f hfFS
      obtain ⟨g, hfg, -⟩ := mem_factors_stripped (hFS ▸ hfFS)
      rw [hfg]
      exact pyStrip_idem _ _
    have hne : ∀ f ∈ FS, f ≠ [] := by
      intro f hfFS
      have hnil := hf hstar
      rw [splitStar_norm_of_star hstar, hFS] at hnil
      intro he
      exact hnil (he ▸ hfFS)
    rw [List.filter_eq_self.mpr (fun f hfFS => by
      simp only [decide_eq_true_eq]; exact hne f hfFS)]
    rw [list_map_eq_self hstripped]
    rw [sortLex_eq_self_of_sorted hsorted]
    rw [norm_of_star (star_normPre_of_star_norm hstar), hFS]
  · rw [norm_of_no_star (s := norm s) (by rw [hpre]; exact hstar)]
    rw [hpre]
    exact stripParens_norm_of_no_star hstar

/- ───────────── findSplit and subPair lemmas ───────────── -/

theorem patAt_append_self {eqc : Char → Char → Bool}
    (hrefl : ∀ c, eqc c c = true) (pat r : List Char) :
    patAt eqc pat (pat ++ r) = true := by
  induction pat with
  | nil => rfl
  | cons p ps ih =>
    rw [List.cons_append, patAt, hrefl p, Bool.true_and]
    exact ih

theorem findSplit_self {eqc : Char → Char → Bool}
    (hrefl : ∀ c, eqc c c = true) (p0 : Char) (ps r : List Char) :
    findSplit eqc (p0 :: ps) ((p0 :: ps) ++ r) = some ([], r) := by
  rw [List.cons_append, findSplit]
  rw [if_pos (by
    have := patAt_append_self hrefl (p0 :: ps) r
    rwa [List.cons_append] at this)]
  rw [← List.cons_append, List.drop_left]

theorem findSplit_prepend {eqc : Char → Char → Bool} {p0 : Char} {ps pre s : List Char}
    (h : ∀ c ∈ pre, eqc p0 c = false) :
    findSplit eqc (p0 :: ps) (pre ++ s) =
      (findSplit eqc (p0 :: ps) s).map (fun pr => (pre ++ pr.1, pr.2)) := by
  induction pre with
  | nil =>
    rw [List.nil_append]
    cases hfs : findSplit eqc (p0 :: ps) s with
    | none => rfl
    | some pr => simp
  | cons c pre' ih =>
    rw [List.cons_append, findSplit]
    rw [if_neg (by
      rw [patAt, h c (List.mem_cons_self c pre')]
      simp)]
    rw [ih (fun d hd => h d (List.mem_cons_of_mem c hd))]
    cases hfs : findSplit eqc (p0 :: ps) s with
    | none => rfl
    | some pr => simp

theorem findSplit_none_of_all {eqc : Char → Char → Bool} {p0 : Char} {ps s : List Char}
    (h : ∀ c ∈ s, eqc p0 c = false) : findSplit eqc (p0 :: ps) s = none := by
  induction s with
  | nil => rfl
  | cons c rest ih =>
    rw [findSplit]
    rw [if_neg (by
      rw [patAt, h c (List.mem_cons_self c rest)]
      simp)]
    rw [ih (fun d hd => h d (List.mem_cons_of_mem c hd))]

theorem patAt_length_le {eqc : Char → Char → Bool} {pat s : List Char}
    (h : patAt eqc pat s = true) : pat.length ≤ s.length := by
  induction pat generalizing s with
  | nil => simp
  | cons p ps ih =>
    cases s with
    | nil => exact absurd h (by rw [patAt]; simp)
    | cons c rest =>
      rw [patAt, Bool.and_eq_true] at h
      have := ih h.2
      simp only [List.length_cons]
      omega

theorem findSplit_suffix {eqc : Char → Char → Bool} {pat s a b : List Char}
    (h : findSplit eqc pat s = some (a, b)) : b <:+ s := by
  induction s generalizing a with
  | nil => exact absurd h (by rw [findSplit]; simp)
  | cons c rest ih =>
    rw [findSplit] at h
    split at h
    · simp only [Option.some.injEq, Prod.mk.injEq] at h
      rw [← h.2]
      exact List.drop_suffix _ _
    · cases hfr : findSplit eqc pat rest with
      | none => rw [hfr] at h; exact absurd h (by simp)
      | some pr =>
        rw [hfr] at h
        simp only [Option.some.injEq, Prod.mk.injEq] at h
        have hsfx : b <:+ rest := ih (a := pr.1) (by rw [hfr, ← h.2])
        exact hsfx.trans (List.suffix_cons c rest)

theorem findSplit_length {eqc : Char → Char → Bool} {pat s a b : List Char}
    (h : findSplit eqc pat s = some (a, b)) :
    a.length + pat.length + b.length = s.length := by
  induction s generalizing a with
  | nil => exact absurd h (by rw [findSplit]; simp)
  | cons c rest ih =>
    rw [findSplit] at h
    split at h
    · next hpa =>
      simp only [Option.some.injEq, Prod.mk.injEq] at h
      have hle := patAt_length_le hpa
      rw [← h.1, ← h.2]
      simp only [List.length_nil, List.length_drop, List.length_cons] at *
      omega
    · cases hfr : findSplit eqc pat rest with
      | none => rw [hfr] at h; exact absurd h (by simp)
      | some pr =>
        rw [hfr] at h
        simp only [Option.some.injEq, Prod.mk.injEq] at h
        have := ih (a := pr.1) (by rw [hfr, ← h.2])
        rw [← h.1]
        simp only [List.length_cons] at *
        omega

theorem occursPat_cons {eqc : Char → Char → Bool} {pat : List Char} {c : Char}
    {rest : List Char} :
    occursPat eqc pat (c :: rest) =
      (patAt eqc pat (c :: rest) || occursPat eqc pat rest) := by
  unfold occursPat
  rw [findSplit]
  split
  · simp_all
  · cases hfr : findSplit eqc pat rest with
    | none => simp_all
    | some pr => simp_all

theorem occursPat_of_suffix {eqc : Char → Char → Bool} {pat b s : List Char}
    (h : occursPat eqc pat b = true) (hs : b <:+ s) : occursPat eqc pat s = true := by
  obtain ⟨t, ht⟩ := hs
  rw [← ht]
  clear ht
  induction t with
  | nil => exact h
  | cons c t' ih =>
    rw [List.cons_append, occursPat_cons, ih]
    simp

theorem subPairF_none {eqc : Char → Char → Bool} {op cl : List Char} {keep : Bool}
    {fuel : Nat} {s : List Char} (h : findSplit eqc op s = none) :
    subPairF eqc op cl keep (fuel + 1) s = s := by
  rw [subPairF, h]

theorem subPairF_noClose {eqc : Char → Char → Bool} {op cl : List Char} {keep : Bool}
    {fuel : Nat} {s a b : List Char} (h1 : findSplit eqc op s = some (a, b))
    (h2 : findSplit eqc cl b = none) :
    subPairF eqc op cl keep (fuel + 1) s = s := by
  rw [subPairF, h1]
  dsimp only
  rw [h2]

theorem subPairF_step {eqc : Char → Char → Bool} {op cl : List Char} {keep : Bool}
    {fuel : Nat} {s a b i p : List Char} (h1 : findSplit eqc op s = some (a, b))
    (h2 : findSplit eqc cl b = some (i, p)) :
    subPairF eqc op cl keep (fuel + 1) s =
      a ++ (if keep then i else []) ++ subPairF eqc op cl keep fuel p := by
  rw [subPairF, h1]
  dsimp only
  rw [h2]

theorem subPairF_congr {eqc : Char → Char → Bool} {op cl : List Char} {keep : Bool}
    (hop : op ≠ []) (hcl : cl ≠ []) :
    ∀ f g : Nat, ∀ s : List Char, s.length < f → s.length < g →
      subPairF eqc op cl keep f s = subPairF eqc op cl keep g s := by
  intro f
  induction f with
  | zero => intro g s hf; omega
  | succ f' ih =>
    intro g s hf hg
    match g, hg with
    | g' + 1, hg =>
      cases hfo : findSplit eqc op s with
      | none => rw [subPairF_none hfo, subPairF_none hfo]
      | some pro =>
        obtain ⟨a, b⟩ := pro
        cases hfc : findSplit eqc cl b with
        | none => rw [subPairF_noClose hfo hfc, subPairF_noClose hfo hfc]
        | some prc =>
          obtain ⟨i, p⟩ := prc
          rw [subPairF_step hfo hfc, subPairF_step hfo hfc]
          have hlo := findSplit_length (a := a) (b := b) hfo
          have hlc := findSplit_length (a := i) (b := p) hfc
          have hoplen : 1 ≤ op.length := by
            cases op with
            | nil => exact absurd rfl hop
            | cons o os => simp
          have hcllen : 1 ≤ cl.length := by
            cases cl with
            | nil => exact absurd rfl hcl
            | cons o os => simp
          rw [ih g' p (by omega) (by omega)]

theorem subPair_none {eqc : Char → Char → Bool} {op cl : List Char} {keep : Bool}
    {s : List Char} (h : findSplit eqc op s = none) :
    subPair eqc op cl keep s = s := by
  unfold subPair
  exact subPairF_none h

theorem subPair_lone_open {eqc : Char → Char → Bool} {op cl : List Char} {keep : Bool}
    {s a b : List Char}
    (h1 : findSplit eqc op s = some (a, b)) (h2 : findSplit eqc cl b = none) :
    subPair eqc op cl keep s = s := by
  unfold subPair
  exact subPairF_noClose h1 h2

theorem subPair_unfold_step {eqc : Char → Char → Bool} {op cl : List Char} {keep : Bool}
    {s a b i p : List Char} (hop : op ≠ []) (hcl : cl ≠ [])
    (h1 : findSplit eqc op s = some (a, b)) (h2 : findSplit eqc cl b = some (i, p)) :
    subPair eqc op cl keep s =
      a ++ (if keep then i else []) ++ subPair eqc op cl keep p := by
  unfold subPair
  rw [subPairF_step h1 h2]
  have hlo := findSplit_length (a := a) (b := b) h1
  have hlc := findSplit_length (a := i) (b := p) h2
  have hoplen : 1 ≤ op.length := by
    cases op with
    | nil => exact absurd rfl hop
    | cons o os => simp
  have hcllen : 1 ≤ cl.length := by
    cases cl with
    | nil => exact absurd rfl hcl
    | cons o os => simp
  rw [subPairF_congr hop hcl s.length (p.length + 1) p (by omega) (by omega)]

theorem subPair_step {eqc : Char → Char → Bool} {keep : Bool} {o0 c0 : Char}
    {os cs pre mid post : List Char}
    (hrefl : ∀ c, eqc c c = true)
    (hpre : ∀ c ∈ pre, eqc o0 c = false)
    (hmid : ∀ c ∈ mid, eqc c0 c = false) :
    subPair eqc (o0 :: os) (c0 :: cs) keep
        (pre ++ (o0 :: os) ++ mid ++ (c0 :: cs) ++ post) =
      pre ++ (if keep then mid else []) ++ subPair eqc (o0 :: os) (c0 :: cs) keep post := by
  have hfo : findSplit eqc (o0 :: os) (pre ++ (o0 :: os) ++ mid ++ (c0 :: cs) ++ post) =
      some (pre, mid ++ (c0 :: cs) ++ post) := by
    rw [List.append_assoc pre, List.append_assoc pre, List.append_assoc pre]
    rw [findSplit_prepend hpre]
    rw [List.append_assoc (o0 :: os), List.append_assoc (o0 :: os)]
    rw [findSplit_self hrefl]
    simp
  have hfc : findSplit eqc (c0 :: cs) (mid ++ (c0 :: cs) ++ post) =
      some (mid, post) := by
    rw [List.append_assoc mid]
    rw [findSplit_prepend hmid]
    rw [findSplit_self hrefl]
    simp
  exact subPair_unfold_step (by simp) (by simp) hfo hfc

theorem subPair_no_close {eqc : Char → Char → Bool} {op : List Char} {c0 : Char}
    {cs : List Char} {keep : Bool} {s : List Char}
    (h : occursPat eqc (c0 :: cs) s = false) :
    subPair eqc op (c0 :: cs) keep s = s := by
  cases hfo : findSplit eqc op s with
  | none => exact subPair_none hfo
  | some pro =>
    obtain ⟨a, b⟩ := pro
    cases hfc : findSplit eqc (c0 :: cs) b with
    | none => exact subPair_lone_open hfo hfc
    | some prc =>
      exfalso
      have hsfx : b <:+ s := findSplit_suffix hfo
      have hocc : occursPat eqc (c0 :: cs) b = true := by
        unfold occursPat
        rw [hfc]
        rfl
      rw [occursPat_of_suffix hocc hsfx] at h
      exact Bool.noConfusion h

/- ───────────── superscript conversion lemmas (C6) ───────────── -/

theorem supGo_false_append {a rest : List Char} (h : '^' ∉ a) :
    supGo false (a ++ rest) = a ++ supGo false rest := by
  induction a with
  | nil => rfl
  | cons c a' ih =>
    rw [List.cons_append, supGo]
    rw [if_neg (by simp)]
    rw [if_neg (by
      intro hc
      exact h (hc.1 ▸ List.mem_cons_self c a'))]
    rw [ih (fun hm => h (List.mem_cons_of_mem c hm))]
    rfl

theorem supGo_true_not_digit {b : List Char} (hb : headDigit b = false) :
    supGo true b = supGo false b := by
  cases b with
  | nil => rfl
  | cons c r =>
    rw [headDigit] at hb
    rw [supGo, supGo]
    rw [if_neg (show ¬(false = true ∧ c.isDigit = true) by simp)]
    rw [if_neg (show ¬(true = true ∧ c.isDigit = true) by simp [hb])]

theorem supGo_true_digits {ds b : List Char} (hds : ∀ d ∈ ds, d.isDigit = true)
    (hb : headDigit b = false) :
    supGo true (ds ++ b) = ds.map supChar ++ supGo false b := by
  induction ds with
  | nil =>
    rw [List.nil_append, List.map_nil, List.nil_append]
    exact supGo_true_not_digit hb
  | cons d ds' ih =>
    rw [List.cons_append, supGo]
    rw [if_pos ⟨rfl, hds d (List.mem_cons_self d ds')⟩]
    rw [ih (fun e he => hds e (List.mem_cons_of_mem d he))]
    rfl

/-- A caret followed by a maximal nonempty digit run is converted to
superscripts; everything around it is untouched. -/
theorem sup_exponents_run {a ds b : List Char} (ha : '^' ∉ a) {d0 : Char}
    {ds' : List Char} (hds : ds = d0 :: ds') (hd : ∀ d ∈ ds, d.isDigit = true)
    (hb : headDigit b = false) :
    sup_exponents (a ++ '^' :: ds ++ b) =
      a ++ ds.map supChar ++ sup_exponents b := by
  unfold sup_exponents
  rw [show a ++ '^' :: ds ++ b = a ++ ('^' :: (ds ++ b)) by simp]
  rw [supGo_false_append ha]
  rw [supGo]
  rw [if_neg (by simp)]
  rw [if_pos ⟨rfl, by
    rw [hds, List.cons_append, headDigit]
    exact hd d0 (hds ▸ List.mem_cons_self d0 ds')⟩]
  rw [supGo_true_digits hd hb]
  simp

/- ───────────── reasoning-line removal lemmas (C7) ───────────── -/

theorem patAt_append_nl {w l r : List Char} (h : ∀ c ∈ w, ciEq c '\n' = false) :
    patAt ciEq w (l ++ '\n' :: r) = patAt ciEq w l := by
  induction w generalizing l with
  | nil => rfl
  | cons p ps ih =>
    cases l with
    | nil =>
      rw [List.nil_append, patAt, patAt]
      have hp : ciEq p '\n' = false := h p (List.mem_cons_self p ps)
      rw [show ciEq p '\n' = ciEq '\n' p from by
        simp [ciEq]; constructor <;> (intro hx; exact hx.symm)] at hp
      rw [show ciEq p '\n' = false from by
        have := h p (List.mem_cons_self p ps)
        exact this]
      simp
    | cons c l' =>
      rw [List.cons_append, patAt, patAt]
      rw [ih (fun d hd => h d (List.mem_cons_of_mem p hd))]

theorem reasonAt_append_nl (l r : List Char) :
    reasonAt (l ++ '\n' :: r) = reasonAt l := by
  unfold reasonAt reasonWords
  simp only [List.any_cons, List.any_nil]
  rw [patAt_append_nl (by decide), patAt_append_nl (by decide), patAt_append_nl (by decide)]

theorem stripReasonGo_line_end {a : List Char} (h : '\n' ∉ a) :
    stripReasonGo RState.line false a = [] := by
  induction a with
  | nil => rfl
  | cons c a' ih =>
    rw [stripReasonGo]
    rw [if_neg (show ¬(c = '\n') from fun hc => h (by rw [← hc]; exact List.mem_cons_self c a'))]
    exact ih (fun hm => h (List.mem_cons_of_mem c hm))

theorem stripReasonGo_line_nl {a rest : List Char} (h : '\n' ∉ a) :
    stripReasonGo RState.line false (a ++ '\n' :: rest) =
      '\n' :: stripReasonGo RState.scan true rest := by
  induction a with
  | nil =>
    rw [List.nil_append, stripReasonGo, if_pos rfl]
  | cons c a' ih =>
    rw [List.cons_append, stripReasonGo]
    rw [if_neg (show ¬(c = '\n') from fun hc => h (by rw [← hc]; exact List.mem_cons_self c a'))]
    exact ih (fun hm => h (List.mem_cons_of_mem c hm))

theorem stripReasonGo_scan_false_end {a : List Char} (h : '\n' ∉ a) :
    stripReasonGo RState.scan false a = a := by
  induction a with
  | nil => rfl
  | cons c a' ih =>
    rw [stripReasonGo]
    rw [if_neg (by simp)]
    have hc : c ≠ '\n' := fun hc => h (by rw [← hc]; exact List.mem_cons_self c a')
    rw [show (c = '\n' : Bool) = false from by simp [hc]]
    rw [ih (fun hm => h (List.mem_cons_of_mem c hm))]

theorem stripReasonGo_scan_false_nl {a rest : List Char} (h : '\n' ∉ a) :
    stripReasonGo RState.scan false (a ++ '\n' :: rest) =
      a ++ '\n' :: stripReasonGo RState.scan true rest := by
  induction a with
  | nil =>
    rw [List.nil_append, stripReasonGo]
    rw [if_neg (by simp)]
    rw [show (('\n' : Char) = '\n' : Bool) = true from by simp]
    rfl
  | cons c a' ih =>
    rw [List.cons_append, stripReasonGo]
    rw [if_neg (by simp)]
    have hc : c ≠ '\n' := fun hc => h (by rw [← hc]; exact List.mem_cons_self c a')
    rw [show (c = '\n' : Bool) = false from by simp [hc]]
    rw [ih (fun hm => h (List.mem_cons_of_mem c hm))]
    rfl

/-- On text whose lines are nonempty and do not start with whitespace, the
reasoning-line stage deletes exactly the lines that begin,
case-insensitively, with one of the three reasoning words. -/
theorem strip_reason_joinNl : ∀ lines : List (List Char),
    (∀ l ∈ lines, l ≠ [] ∧ pyIsSpace (l.headD ' ') = false ∧ '\n' ∉ l) →
    strip_reason_lines (joinNl lines) =
      joinNl (lines.map (fun l => if reasonAt l then [] else l)) := by
  intro lines
  unfold strip_reason_lines
  induction lines with
  | nil => intro h; rfl
  | cons l ls ih =>
    intro h
    obtain ⟨hne, hhead, hnl⟩ := h l (List.mem_cons_self l ls)
    match l, hne, hhead, hnl with
    | c :: r, _, hhead, hnl =>
    have hcspace : pyIsSpace c = false := hhead
    have hcnl : c ≠ '\n' := fun hc => by
      rw [hc] at hcspace
      exact absurd hcspace (by decide)
    have hrnl : '\n' ∉ r := fun hm => hnl (List.mem_cons_of_mem c hm)
    cases ls with
    | nil =>
      show stripReasonGo RState.scan true (c :: r) = _
      rw [stripReasonGo]
      have hdrop : (c :: r).dropWhile pyIsSpace = c :: r := by
        rw [List.dropWhile_cons, hcspace]
        simp
      by_cases hra : reasonAt (c :: r) = true
      · rw [if_pos ⟨rfl, by rw [hdrop]; exact hra⟩]
        rw [if_neg (by rw [hcspace]; simp)]
        rw [stripReasonGo_line_end hrnl]
        show ([] : List Char) = joinNl [if reasonAt (c :: r) then [] else c :: r]
        rw [if_pos hra]
        rfl
      · rw [if_neg (by
          intro hand
          rw [hdrop] at hand
          exact hra hand.2)]
        rw [show (decide (c = '\n')) = false from by simp [hcnl]]
        rw [stripReasonGo_scan_false_end hrnl]
        show c :: r = joinNl [if reasonAt (c :: r) then [] else c :: r]
        rw [if_neg hra]
        rfl
    | cons l' ls' =>
      have hJ : joinNl ((c :: r) :: l' :: ls') =
          c :: (r ++ '\n' :: joinNl (l' :: ls')) := rfl
      rw [hJ, stripReasonGo]
      have hdrop : (c :: (r ++ '\n' :: joinNl (l' :: ls'))).dropWhile pyIsSpace =
          c :: (r ++ '\n' :: joinNl (l' :: ls')) := by
        rw [List.dropWhile_cons, hcspace]
        simp
      have hreq : reasonAt (c :: (r ++ '\n' :: joinNl (l' :: ls'))) = reasonAt (c :: r) := by
        rw [show c :: (r ++ '\n' :: joinNl (l' :: ls')) =
          (c :: r) ++ '\n' :: joinNl (l' :: ls') from rfl]
        exact reasonAt_append_nl (c :: r) (joinNl (l' :: ls'))
      have hih := ih (fun x hx => h x (List.mem_cons_of_mem _ hx))
      by_cases hra : reasonAt (c :: r) = true
      · rw [if_pos ⟨rfl, by rw [hdrop, hreq]; exact hra⟩]
        rw [if_neg (by rw [hcspace]; simp)]
        rw [stripReasonGo_line_nl hrnl]
        rw [hih]
        show '\n' :: joinNl ((l' :: ls').map (fun l => if reasonAt l then [] else l)) =
          joinNl ((if reasonAt (c :: r) then [] else c :: r) ::
            (l' :: ls').map (fun l => if reasonAt l then [] else l))
        rw [if_pos hra]
        rfl
      · rw [if_neg (by
          intro hand
          rw [hdrop, hreq] at hand
          exact hra hand.2)]
        rw [show (decide (c = '\n')) = false from by simp [hcnl]]
        rw [stripReasonGo_scan_false_nl hrnl]
        rw [hih]
        show c :: (r ++ '\n' :: joinNl ((l' :: ls').map (fun l => if reasonAt l then [] else l))) =
          joinNl ((if reasonAt (c :: r) then [] else c :: r) ::
            (l' :: ls').map (fun l => if reasonAt l then [] else l))
        rw [if_neg hra]
        rfl

/- ───────────── output boundary characters (C9) and C2 support ───────────── -/

theorem head?_joinStar_not_paren {fs : List (List Char)}
    (hfs : ∀ f ∈ fs, ∀ c, f.head? = some c → isParen c = false) :
    ∀ c, (joinStar fs).head? = some c → isParen c = false := by
  match fs with
  | [] =>
    intro c hc
    exact absurd hc (by simp [joinStar])
  | [f] => exact hfs f (List.mem_cons_self f [])
  | f :: g :: t =>
    intro c hc
    rw [joinStar_cons_cons] at hc
    cases f with
    | nil =>
      rw [List.nil_append, List.head?_cons, Option.some.injEq] at hc
      rw [← hc]
      decide
    | cons x xs =>
      rw [List.head?_append_of_ne_nil _ (by simp)] at hc
      exact hfs (x :: xs) (List.mem_cons_self _ _) c hc

theorem getLast?_joinStar_not_paren {fs : List (List Char)}
    (hfs : ∀ f ∈ fs, ∀ c, f.getLast? = some c → isParen c = false) :
    ∀ c, (joinStar fs).getLast? = some c → isParen c = false := by
  match fs with
  | [] =>
    intro c hc
    exact absurd hc (by simp [joinStar])
  | [f] => exact hfs f (List.mem_cons_self f [])
  | f :: g :: t =>
    intro c hc
    rw [joinStar_cons_cons, List.getLast?_append] at hc
    cases hJ : joinStar (g :: t) with
    | nil =>
      rw [hJ] at hc
      have hcs : '*' = c := by simpa using hc
      rw [← hcs]
      decide
    | cons j js =>
      rw [hJ] at hc
      have hgl : ('*' :: j :: js).getLast? = (j :: js).getLast? := by
        rw [List.getLast?_cons_cons]
      rw [hgl] at hc
      cases hlJ : (j :: js).getLast? with
      | none => exact absurd hlJ (by simp)
      | some v =>
        rw [hlJ] at hc
        have hcv : v = c := by simpa using hc
        rw [← hcv]
        exact getLast?_joinStar_not_paren
          (fun f' hf' => hfs f' (List.mem_cons_of_mem f hf')) v (by rw [hJ, hlJ])

theorem norm_head_not_paren (s : List Char) :
    ∀ c, (norm s).head? = some c → isParen c = false := by
  by_cases hstar : '*' ∈ normPre s
  · rw [norm_of_star hstar]
    apply head?_joinStar_not_paren
    intro f hf c hc
    obtain ⟨g, hfg, -⟩ := mem_factors_stripped hf
    exact head?_pyStrip (hfg ▸ hc)
  · rw [norm_of_no_star hstar]
    intro c hc
    exact head?_pyStrip hc

theorem norm_getLast_not_paren (s : List Char) :
    ∀ c, (norm s).getLast? = some c → isParen c = false := by
  by_cases hstar : '*' ∈ normPre s
  · rw [norm_of_star hstar]
    apply getLast?_joinStar_not_paren
    intro f hf c hc
    obtain ⟨g, hfg, -⟩ := mem_factors_stripped hf
    exact getLast?_pyStrip (hfg ▸ hc)
  · rw [norm_of_no_star hstar]
    intro c hc
    exact getLast?_pyStrip hc

theorem mem_norm_not_space {s : List Char} {c : Char} (h : c ∈ norm s) : c ≠ ' ' := by
  rcases mem_norm_cases h with h1 | h1
  · unfold normPre at h1
    rcases mem_replParen h1 with h2 | h2
    · have h3 := mem_pyStrip h2
      rw [removeSpaces] at h3
      have h4 := List.of_mem_filter h3
      simpa using h4
    · rw [h2]
      decide
  · rw [h1]
    decide

theorem mem_norm_not_upper {s : List Char} {c : Char} (h : c ∈ norm s) :
    isUpperA c = false := by
  have hfix := norm_lower_fixed h
  rw [← hfix]
  exact isUpperA_pyLower c

/- ───────────── character bridging for the tag lemmas ───────────── -/

theorem ciEq_lt_of_ne {c : Char} (h : c ≠ '<') : ciEq '<' c = false := by
  rw [Bool.eq_false_iff]
  intro hc
  exact h ((ciEq_rigid (by decide) (by decide) c).mp hc)

theorem chEq_of_ne {a c : Char} (h : c ≠ a) : chEq a c = false := by
  simp only [chEq, decide_eq_false_iff_not]
  exact fun he => h he.symm

/- ───────────── Claims ───────────── -/

/-- Claim C1, counterexample: idempotence fails as stated.  On the input
`(\t)` the normalizer returns a bare tab (the parentheses are trimmed but
the tab survives, since only spaces are removed), while a second
application strips the tab as leading whitespace and returns the empty
string. -/
theorem claim_C1_counterexample :
    norm ("(\t)".toList) = "\t".toList ∧
    norm (norm ("(\t)".toList)) = [] ∧
    "\t".toList ≠ ([] : List Char) := by
  decide

/-- Claim C1 (amended): the answer normalizer is idempotent on every string
whose normalized form contains no whitespace character and, when that form
contains a `*`, splits into no empty factor. -/
theorem claim_C1 : ∀ s : List Char,
    (∀ c ∈ norm s, pyIsSpace c = false) →
    ('*' ∈ norm s → [] ∉ splitStar (norm s)) →
    norm (norm s) = norm s :=
  fun _ hw hf => norm_norm_eq hw hf

theorem claim_C1_witness :
    norm (norm ("(x+2)(x-3)".toList)) = norm ("(x+2)(x-3)".toList) :=
  claim_C1 _ (by decide) (by decide)

/-- Claim C2, counterexample: step 1 removes only space characters, not all
whitespace.  A tab survives normalization (so the output can contain
whitespace), and two inputs differing only in an inserted newline
normalize differently. -/
theorem claim_C2_counterexample :
    '\t' ∈ norm ("x\t+2".toList) ∧ pyIsSpace '\t' = true ∧
    norm ("x\n+2".toList) ≠ norm ("x+2".toList) := by
  decide

/-- Claim C2 (amended): normalization lower-cases the input and removes all
space characters: the output contains no space and no upper-case ASCII
letter, two inputs that agree after lower-casing and space removal
normalize to the same string, and `X+2` and ` x + 2 ` both normalize to
`x+2`. -/
theorem claim_C2 :
    (∀ s : List Char, ∀ c ∈ norm s, c ≠ ' ' ∧ isUpperA c = false) ∧
    (∀ s t : List Char,
      removeSpaces (s.map pyLower) = removeSpaces (t.map pyLower) →
      norm s = norm t) ∧
    norm ("X+2".toList) = "x+2".toList ∧
    norm (" x + 2 ".toList) = "x+2".toList := by
  refine ⟨fun s c hc => ⟨mem_norm_not_space hc, mem_norm_not_upper hc⟩,
    ?_, by decide, by decide⟩
  intro s t h
  unfold norm normPre
  rw [h]

theorem claim_C2_witness :
    ('x' ≠ ' ' ∧ isUpperA 'x' = false) ∧
    norm ("a B".toList) = norm ("AB".toList) :=
  ⟨claim_C2.1 ("X+2".toList) 'x' (by decide),
   claim_C2.2.1 ("a B".toList) ("AB".toList) (by decide)⟩

/-- Claim C3: normalization of a product of parenthesized factors is
invariant under any permutation of the factors, and in particular
`(x+2)(x-3)` and `(x-3)(x+2)` normalize identically. -/
theorem claim_C3 :
    (∀ fs gs : List (List Char), fs.Perm gs →
      norm (renderProd fs) = norm (renderProd gs)) ∧
    norm ("(x+2)(x-3)".toList) = norm ("(x-3)(x+2)".toList) :=
  ⟨fun _ _ h => norm_renderProd_perm h, by decide⟩

theorem claim_C3_witness :
    norm (renderProd ["x+2".toList, "x-3".toList]) =
      norm (renderProd ["x-3".toList, "x+2".toList]) :=
  claim_C3.1 _ _ (by decide)

/-- Claim C4, counterexample: the claim's description of the preprocessing
(remove all whitespace) disagrees with the code (remove spaces only): on
`a<TAB>b` the claimed pipeline yields `ab` while the code returns the string
with the tab intact. -/
theorem claim_C4_counterexample :
    '*' ∉ specNormPre ("a\tb".toList) ∧
    stripParens (specNormPre ("a\tb".toList)) = "ab".toList ∧
    norm ("a\tb".toList) = "a\tb".toList ∧
    "a\tb".toList ≠ "ab".toList := by
  decide

/-- Claim C4 (amended): for every input that, after lower-casing, space
removal, whitespace trimming at the two ends, and rewriting `)(` to `)*(`,
contains no `*`, the result is that preprocessed string with all leading
and trailing parenthesis characters trimmed (even if unbalanced); in
particular `(5)` and `5` both normalize to `5`. -/
theorem claim_C4 :
    (∀ s : List Char, '*' ∉ normPre s → norm s = stripParens (normPre s)) ∧
    norm ("(5)".toList) = "5".toList ∧ norm ("5".toList) = "5".toList :=
  ⟨fun _ h => norm_of_no_star h, by decide, by decide⟩

theorem claim_C4_witness :
    norm ("(((5)".toList) = stripParens (normPre ("(((5)".toList)) :=
  claim_C4.1 _ (by decide)

/-- Claim C5: the sanitizer removes every substring delimited by a
case-insensitive think tag pair (including multi-line content), keeping the
text outside the pair, and `<think>secret</think>visible` sanitizes to
`visible`. -/
theorem claim_C5 :
    (∀ pre mid post : List Char, '<' ∉ pre → '<' ∉ mid →
      strip_think (pre ++ "<think>".toList ++ mid ++ "</think>".toList ++ post) =
        pre ++ strip_think post) ∧
    strip_hidden_thoughts ("<think>secret</think>visible".toList) =
      "visible".toList := by
  constructor
  · intro pre mid post hpre hmid
    have hstep := @subPair_step ciEq false '<' '<'
      ("think>".toList) ("/think>".toList) pre mid post
      ciEq_refl
      (fun c hc => ciEq_lt_of_ne (fun he => hpre (by rw [← he]; exact hc)))
      (fun c hc => ciEq_lt_of_ne (fun he => hmid (by rw [← he]; exact hc)))
    have h1 : ('<' :: "think>".toList) = "<think>".toList := rfl
    have h2 : ('<' :: "/think>".toList) = "</think>".toList := rfl
    rw [h1, h2] at hstep
    unfold strip_think thinkOpen thinkClose
    rw [hstep]
    simp
  · decide

theorem claim_C5_witness :
    strip_think ("ab".toList ++ "<think>".toList ++ "secret".toList ++
        "</think>".toList ++ "visible".toList) =
      "ab".toList ++ strip_think ("visible".toList) :=
  claim_C5.1 _ _ _ (by decide) (by decide)

/-- Claim C6: the sanitizer unwraps inline LaTeX delimiters keeping the
inner content, converts every caret-prefixed ASCII digit run to Unicode
superscripts with the caret removed, and in particular maps `\(x^2\)` to
`x²` and `a^12` to `a¹²`. -/
theorem claim_C6 :
    (∀ pre mid post : List Char, '\\' ∉ pre → '\\' ∉ mid →
      unwrapInline (pre ++ "\\(".toList ++ mid ++ "\\)".toList ++ post) =
        pre ++ mid ++ unwrapInline post) ∧
    (∀ a b ds : List Char, '^' ∉ a → ds ≠ [] →
      (∀ d ∈ ds, d.isDigit = true) → headDigit b = false →
      sup_exponents (a ++ '^' :: ds ++ b) =
        a ++ ds.map supChar ++ sup_exponents b) ∧
    strip_hidden_thoughts ("\\(x^2\\)".toList) = "x²".toList ∧
    strip_hidden_thoughts ("a^12".toList) = "a¹²".toList := by
  refine ⟨?_, ?_, by decide, by decide⟩
  · intro pre mid post hpre hmid
    have hstep := @subPair_step chEq true '\\' '\\'
      (['(']) ([')']) pre mid post
      chEq_refl
      (fun c hc => chEq_of_ne (fun he => hpre (by rw [← he]; exact hc)))
      (fun c hc => chEq_of_ne (fun he => hmid (by rw [← he]; exact hc)))
    have h1 : ('\\' :: ['(']) = "\\(".toList := rfl
    have h2 : ('\\' :: [')']) = "\\)".toList := rfl
    rw [h1, h2] at hstep
    unfold unwrapInline latexInlineOpen latexInlineClose
    rw [hstep]
    simp
  · intro a b ds ha hds hd hb
    match ds, hds, hd with
    | d0 :: ds', _, hd => exact sup_exponents_run ha rfl hd hb

theorem claim_C6_witness :
    unwrapInline ("eq ".toList ++ "\\(".toList ++ "x+1".toList ++
        "\\)".toList ++ "!".toList) =
      "eq ".toList ++ "x+1".toList ++ unwrapInline ("!".toList) ∧
    sup_exponents ("x".toList ++ '^' :: "23".toList ++ "+1".toList) =
      "x".toList ++ "23".toList.map supChar ++ sup_exponents ("+1".toList) :=
  ⟨claim_C6.1 _ _ _ (by decide) (by decide),
   claim_C6.2.1 ("x".toList) ("+1".toList) ("23".toList)
     (by decide) (by decide) (by decide) (by decide)⟩

/-- Claim C7, counterexample: the regex allows leading whitespace before
the reasoning word (`^\s*`), so the line ` thought: hi` is deleted even
though it does not begin with any of the three words — refuting the claim
that no other line is deleted. -/
theorem claim_C7_counterexample :
    strip_reason_lines (" thought: hi".toList) = [] ∧
    strip_hidden_thoughts (" thought: hi".toList) = [] ∧
    patAt ciEq ("thought".toList) (" thought: hi".toList) = false ∧
    patAt ciEq ("razonamiento".toList) (" thought: hi".toList) = false ∧
    patAt ciEq ("assistant reasoning".toList) (" thought: hi".toList) = false := by
  decide

/-- Claim C7 (amended): on text whose lines are nonempty and do not begin
with whitespace, the reasoning-line stage deletes exactly the content of
the lines that begin, case-insensitively, with `thought`, `razonamiento`
or `assistant reasoning`, and keeps every other line; lines preceded by
whitespace may additionally be deleted, as the counterexample shows. -/
theorem claim_C7 : ∀ lines : List (List Char),
    (∀ l ∈ lines, l ≠ [] ∧ pyIsSpace (l.headD ' ') = false ∧ '\n' ∉ l) →
    strip_reason_lines (joinNl lines) =
      joinNl (lines.map (fun l => if reasonAt l then [] else l)) :=
  strip_reason_joinNl

theorem claim_C7_witness :
    strip_reason_lines (joinNl ["Thought: use x".toList, "ok".toList]) =
      joinNl (["Thought: use x".toList, "ok".toList].map
        (fun l => if reasonAt l then [] else l)) :=
  claim_C7 _ (by decide)

/-- Claim C8: both core functions are total Lean functions; the empty
string maps to the empty string, unbalanced parentheses are still
processed, and unmatched delimiters (an unclosed think tag, a lone inline
LaTeX opener, a lone `$$`) leave the text untouched. -/
theorem claim_C8 :
    norm [] = [] ∧
    strip_hidden_thoughts [] = [] ∧
    norm ("((".toList) = [] ∧
    (∀ s : List Char, occursPat ciEq ("</think>".toList) s = false →
      strip_think s = s) ∧
    (∀ s : List Char, occursPat chEq ("\\)".toList) s = false →
      unwrapInline s = s) ∧
    (∀ s a b : List Char, findSplit chEq ("$$".toList) s = some (a, b) →
      occursPat chEq ("$$".toList) b = false → unwrapDollars s = s) := by
  refine ⟨by decide, by decide, by decide, ?_, ?_, ?_⟩
  · intro s h
    exact @subPair_no_close ciEq thinkOpen '<' ("/think>".toList) false s h
  · intro s h
    exact @subPair_no_close chEq latexInlineOpen '\\' ([')']) true s h
  · intro s a b h1 h2
    have h3 : findSplit chEq ("$$".toList) b = none := by
      unfold occursPat at h2
      cases hfb : findSplit chEq ("$$".toList) b with
      | none => rfl
      | some pr =>
        rw [hfb] at h2
        exact absurd h2 (by simp)
    exact subPair_lone_open h1 h3

theorem claim_C8_witness :
    strip_think ("<think>oops".toList) = "<think>oops".toList ∧
    unwrapInline ("\\(x".toList) = "\\(x".toList ∧
    unwrapDollars ("a$$b".toList) = "a$$b".toList :=
  ⟨claim_C8.2.2.2.1 _ (by decide),
   claim_C8.2.2.2.2.1 _ (by decide),
   claim_C8.2.2.2.2.2 _ ("a".toList) ("b".toList) (by decide) (by decide)⟩

/-- Claim C9: the output of the normalizer never starts or ends with a
parenthesis character, because every factor (and the single-term case) is
trimmed of parentheses before the result is assembled. -/
theorem claim_C9 : ∀ s : List Char,
    ((norm s).head?.all (fun c => !isParen c)) = true ∧
    ((norm s).getLast?.all (fun c => !isParen c)) = true := by
  intro s
  constructor
  · cases hh : (norm s).head? with
    | none => rfl
    | some c =>
      have hnp := norm_head_not_paren s c hh
      simp [Option.all, hnp]
  · cases hh : (norm s).getLast? with
    | none => rfl
    | some c =>
      have hnp := norm_getLast_not_paren s c hh
      simp [Option.all, hnp]

/-- Claim C10: the trivial-parenthesis collapse is a single pass that
removes one nesting level of a single-character group: `((a))` sanitizes
to `(a)` rather than `a`, so applying the sanitizer twice differs from
applying it once on this input. -/
theorem claim_C10 :
    strip_hidden_thoughts ("((a))".toList) = "(a)".toList ∧
    strip_hidden_thoughts (strip_hidden_thoughts ("((a))".toList)) ≠
      strip_hidden_thoughts ("((a))".toList) := by
  decide

end Quiz
